import Mathlib

/-
Verification of the qqqt backtesting core against its specification.

The embedding translates the Python/TypeScript sources into Lean:
floating-point values are modelled as exact rationals (ℚ), with real-valued
results (square roots, real powers) living in ℝ; Python integers are ℤ/ℕ;
code that can raise an exception is modelled with Option (none = raised /
propagating NaN).  Sources embedded here:
  backend/app/config.py            (MarketConfig, MARKET_CONFIGS)
  backend/app/engine/broker.py     (Broker)
  backend/app/strategies/mean_reversion.py (MeanReversionStrategy.on_bar)
  backend/app/analytics/performance.py     (PerformanceMetrics)
  frontend/lib/api-client.ts       (getBacktest drawdown derivation)
-/

/-- MarketConfig from backend/app/config.py. -/
structure MarketConfig where
  commission_rate : ℚ
  min_commission : ℚ
  slippage_daily : ℚ
  slippage_hourly : ℚ
  min_order_amount : ℚ
  currency : String
  trading_days_per_year : ℕ
deriving DecidableEq

/-- MARKET_CONFIGS["US"]: rate 0.0025, min commission $1, min order $100. -/
def usConfig : MarketConfig :=
  { commission_rate := 25/10000
    min_commission := 1
    slippage_daily := 1/1000
    slippage_hourly := 5/10000
    min_order_amount := 100
    currency := "USD"
    trading_days_per_year := 252 }

/-- MARKET_CONFIGS["KR"]: rate 0.00015, no min commission, min order ₩100,000. -/
def krConfig : MarketConfig :=
  { commission_rate := 15/100000
    min_commission := 0
    slippage_daily := 1/1000
    slippage_hourly := 5/10000
    min_order_amount := 100000
    currency := "KRW"
    trading_days_per_year := 245 }

/-- Broker.calculate_commission: max(fill_price * quantity * commission_rate,
min_commission).  `quantity` is a Python int. -/
def calculate_commission (cfg : MarketConfig) (fill_price : ℚ) (quantity : ℤ) : ℚ :=
  max (fill_price * quantity * cfg.commission_rate) cfg.min_commission

/-- Broker.calculate_quantity: target = equity*weight, clamped by the 40%
per-symbol cap (MAX_POSITION_WEIGHT), rejected below min_order_amount,
then floor-divided by the fill price and clamped at 0. -/
def calculate_quantity (cfg : MarketConfig)
    (portfolio_equity weight fill_price current_position_value : ℚ) : ℤ :=
  let target_value := portfolio_equity * weight
  let max_value := portfolio_equity * (40/100)
  let allowed_value := max_value - current_position_value
  let target_value2 := min target_value allowed_value
  if target_value2 < cfg.min_order_amount then 0
  else max ⌊target_value2 / fill_price⌋ 0

/-- Broker.validate_order: returns (accepted?, rejection reason).
MIN_CASH_RESERVE_RATIO = 0.05. -/
def validate_order (cfg : MarketConfig)
    (portfolio_equity available_cash fill_price : ℚ) (quantity : ℤ) :
    Bool × Option String :=
  let order_value := fill_price * quantity
  let commission := calculate_commission cfg fill_price quantity
  let total_cost := order_value + commission
  if available_cash < total_cost then (false, some "INSUFFICIENT_CASH")
  else if available_cash - total_cost < portfolio_equity * (5/100) then
    (false, some "CASH_RESERVE_VIOLATION")
  else if order_value < cfg.min_order_amount then (false, some "BELOW_MIN_ORDER")
  else (true, none)

/-- Mean of a list of rationals: np.mean / pandas mean (junk value 0 on []). -/
def meanQ (xs : List ℚ) : ℚ := xs.sum / xs.length

/-- Population variance (np.std(xs))², ddof = 0; np.std(xs) == 0 iff this is 0,
since the standard deviation is the square root of this non-negative value. -/
def varQ (xs : List ℚ) : ℚ :=
  (xs.map (fun x => (x - meanQ xs) ^ 2)).sum / xs.length

/-- Sample variance (pandas Series.std(xs))², ddof = 1.  pandas returns NaN
for fewer than 2 observations, modelled as none. -/
def varS (xs : List ℚ) : Option ℚ :=
  if xs.length < 2 then none
  else some ((xs.map (fun x => (x - meanQ xs) ^ 2)).sum / ((xs.length - 1 : ℕ) : ℚ))

/-- Tail of pandas pct_change: successive ratios minus 1, given the previous
element. -/
def pctChanges : ℚ → List ℚ → List ℚ
  | _, [] => []
  | prev, x :: xs => (x / prev - 1) :: pctChanges x xs

/-- PerformanceMetrics.calculate_returns: equity_curve.pct_change().fillna(0),
so the first return is 0 and returns[i] = equity[i]/equity[i-1] - 1. -/
def calculate_returns : List ℚ → List ℚ
  | [] => []
  | x :: xs => 0 :: pctChanges x xs

/-- PerformanceMetrics.total_return: equity.iloc[-1]/equity.iloc[0] - 1.
iloc raises IndexError on an empty series, modelled as none. -/
def total_return : List ℚ → Option ℚ
  | [] => none
  | x :: xs => some ((x :: xs).getLast (List.cons_ne_nil x xs) / x - 1)

/-- PerformanceMetrics.annual_return: computes total_return first (raising on
an empty curve), then returns 0 if years ≤ 0, else
(1+total_return)^(1/years) - 1 with years = n_bars/trading_days. -/
noncomputable def annual_return (ec : List ℚ) (trading_days : ℕ) : Option ℝ :=
  (total_return ec).map (fun (tr : ℚ) =>
    let years : ℚ := (ec.length : ℚ) / (trading_days : ℚ)
    if years ≤ 0 then (0 : ℝ)
    else (1 + (tr : ℝ)) ^ ((1 : ℝ) / (years : ℝ)) - 1)

/-- PerformanceMetrics.sharpe_ratio.  The code tests returns.std() == 0 (false
for NaN, so a NaN std falls through to the formula and yields NaN = none);
std = √(sample variance), which is 0 iff the variance is 0. -/
noncomputable def sharpe_ratio (ec : List ℚ) (risk_free_rate : ℚ) (trading_days : ℕ) :
    Option ℝ :=
  let returns := calculate_returns ec
  let excess := returns.map (fun r => r - risk_free_rate / trading_days)
  match varS returns with
  | none => none
  | some v =>
    if v = 0 then some 0
    else some (Real.sqrt trading_days * ((meanQ excess : ℚ) : ℝ) / Real.sqrt (v : ℝ))

/-- PerformanceMetrics.sortino_ratio: like sharpe but the denominator is the
std of the negative returns only; returns 0 if there are none or their std is
0 (a NaN std of a single downside return falls through to NaN = none). -/
noncomputable def sortino_ratio (ec : List ℚ) (risk_free_rate : ℚ) (trading_days : ℕ) :
    Option ℝ :=
  let returns := calculate_returns ec
  let excess := returns.map (fun r => r - risk_free_rate / trading_days)
  let downside := returns.filter (fun r => r < 0)
  if downside.length = 0 then some 0
  else
    match varS downside with
    | none => none
    | some v =>
      if v = 0 then some 0
      else some (Real.sqrt trading_days * ((meanQ excess : ℚ) : ℝ) / Real.sqrt (v : ℝ))

/-- PerformanceMetrics.profit_factor: 0 on an empty ledger; otherwise gross
profit / |gross loss|, with ⊤ (float inf) when the loss is 0 and there is a
positive gross profit. -/
def profit_factor (trades : List ℚ) : WithTop ℚ :=
  if trades = [] then 0
  else
    let gross_profit := (trades.filter (fun p => 0 < p)).sum
    let gross_loss := |(trades.filter (fun p => p < 0)).sum|
    if gross_loss = 0 then (if 0 < gross_profit then ⊤ else 0)
    else ((gross_profit / gross_loss : ℚ) : WithTop ℚ)

/-- Loop body of PerformanceMetrics.max_consecutive: state is
(max_streak, current). -/
def streakStep (s : ℕ × ℕ) (r : Bool) : ℕ × ℕ :=
  if r then (max s.1 (s.2 + 1), s.2 + 1) else (s.1, 0)

/-- PerformanceMetrics.max_consecutive: classify each trade
(win: pnl > 0, loss: pnl ≤ 0) and return the longest streak of the fold. -/
def max_consecutive (trades : List ℚ) (win : Bool) : ℕ :=
  if trades = [] then 0
  else
    let results := trades.map (fun p => if win then decide (0 < p) else decide (p ≤ 0))
    (results.foldl streakStep (0, 0)).1

/-- Length of the leading run of `true` in a boolean list (specification-side
helper for max_consecutive). -/
def runLen : List Bool → ℕ
  | true :: t => runLen t + 1
  | _ => 0

/-- Length of the longest run of consecutive `true` in a boolean list
(specification-side helper for max_consecutive). -/
def longestRun : List Bool → ℕ
  | [] => 0
  | b :: t => max (runLen (b :: t)) (longestRun t)

/-- Order side of a PendingOrder. -/
inductive OrderSide where
  | BUY
  | SELL
deriving DecidableEq

/-- PendingOrder produced by a strategy for one symbol (the symbol and the
free-text reason carry no behaviour and are omitted). -/
structure PendingOrder where
  side : OrderSide
  weight : ℚ
deriving DecidableEq

/-- Parameters of MeanReversionStrategy. -/
structure MRParams where
  lookback_period : ℕ
  entry_threshold : ℚ
  exit_threshold : ℚ
  position_weight : ℚ

/-- The lookback window: prices = state["price_history"][-lookback:] after the
current close has been appended. -/
def mrWindow (p : MRParams) (history : List ℚ) (close : ℚ) : List ℚ :=
  let history2 := history ++ [close]
  history2.drop (history2.length - p.lookback_period)

/-- The z-score (close - mean)/std over the lookback window, std = √variance. -/
noncomputable def mrZ (p : MRParams) (history : List ℚ) (close : ℚ) : ℝ :=
  ((close : ℝ) - ((meanQ (mrWindow p history close) : ℚ) : ℝ)) /
    Real.sqrt ((varQ (mrWindow p history close) : ℚ) : ℝ)

/-- One iteration of the symbol loop in MeanReversionStrategy.on_bar:
`history` is the symbol's price history before this bar, `close` the current
close, `held` whether portfolio.get_position(symbol) is not None.  Returns the
PendingOrder appended for this symbol, if any.  The source guard
`std == 0` is modelled as `varQ = 0` (std = √variance, and the variance is a
mean of squares, hence non-negative, so std = 0 iff variance = 0). -/
noncomputable def on_bar_symbol (p : MRParams) (history : List ℚ) (close : ℚ)
    (held : Bool) : Option PendingOrder :=
  if (history ++ [close]).length < p.lookback_period then none
  else if varQ (mrWindow p history close) = 0 then none
  else if mrZ p history close < -(p.entry_threshold : ℝ) ∧ held = false then
    some ⟨OrderSide.BUY, p.position_weight⟩
  else if held = true ∧ -(p.exit_threshold : ℝ) < mrZ p history close then
    some ⟨OrderSide.SELL, 1⟩
  else none

/-- Inner loop of the drawdown derivation in getBacktest
(frontend/lib/api-client.ts): carries the running peak. -/
def ddGo (peak : ℚ) : List ℚ → List ℚ
  | [] => []
  | e :: es =>
    let p := if peak < e then e else peak
    (if 0 < p then (e - p) / p else 0) :: ddGo p es

/-- Drawdown derivation of getBacktest: for a non-empty equity list the peak
is initialised to the first equity and every point is mapped to its drawdown. -/
def deriveDrawdowns : List ℚ → List ℚ
  | [] => []
  | e0 :: rest => ddGo e0 (e0 :: rest)

/-- C1: for equity ≥ 0, fill_price > 0 (and the configs' min_order_amount ≥ 0),
calculate_quantity is non-negative; it is 0 when the clamped target
min(equity*weight, equity*0.40 − current_position_value) is below
min_order_amount, and otherwise equals ⌊target/fill_price⌋; for a fresh entry
(current_position_value = 0) the notional quantity*fill_price never exceeds
40% of equity. -/
theorem calculate_quantity_spec (cfg : MarketConfig) (e w fp cpv : ℚ)
    (he : 0 ≤ e) (hfp : 0 < fp) (hmoa : 0 ≤ cfg.min_order_amount) :
    0 ≤ calculate_quantity cfg e w fp cpv ∧
    (min (e * w) (e * (40/100) - cpv) < cfg.min_order_amount →
      calculate_quantity cfg e w fp cpv = 0) ∧
    (cfg.min_order_amount ≤ min (e * w) (e * (40/100) - cpv) →
      calculate_quantity cfg e w fp cpv =
        ⌊min (e * w) (e * (40/100) - cpv) / fp⌋) ∧
    (calculate_quantity cfg e w fp 0 : ℚ) * fp ≤ (40/100) * e := by
  unfold calculate_quantity
  simp only
  refine ⟨?_, ?_, ?_, ?_⟩
  · split
    · exact le_refl 0
    · exact le_max_right _ 0
  · intro h
    rw [if_pos h]
  · intro h
    rw [if_neg (not_lt.mpr h)]
    refine max_eq_left (Int.floor_nonneg.mpr (div_nonneg ?_ hfp.le))
    exact le_trans hmoa h
  · set t := min (e * w) (e * (40/100) - 0) with ht
    have htle : t ≤ (40/100) * e := by
      calc t ≤ e * (40/100) - 0 := min_le_right _ _
        _ = (40/100) * e := by ring
    by_cases hrej : t < cfg.min_order_amount
    · rw [if_pos hrej]
      simpa using mul_nonneg (by norm_num : (0:ℚ) ≤ 40/100) he
    · rw [if_neg hrej]
      have htnn : 0 ≤ t := le_trans hmoa (not_lt.mp hrej)
      have hfl : (0:ℤ) ≤ ⌊t / fp⌋ := Int.floor_nonneg.mpr (div_nonneg htnn hfp.le)
      rw [max_eq_left hfl]
      have h1 : ((⌊t / fp⌋ : ℤ) : ℚ) ≤ t / fp := Int.floor_le _
      have h2 : ((⌊t / fp⌋ : ℤ) : ℚ) * fp ≤ (t / fp) * fp :=
        mul_le_mul_of_nonneg_right h1 hfp.le
      calc ((⌊t / fp⌋ : ℤ) : ℚ) * fp ≤ (t / fp) * fp := h2
        _ = t := div_mul_cancel₀ t hfp.ne'
        _ ≤ (40/100) * e := htle

/-- Witness for C1 at the US config, equity 1000, weight 1/2, fill price 10,
fresh entry: the 40% cap clamps the target to 400 and the quantity is 40. -/
theorem calculate_quantity_spec_witness :
    (0:ℚ) ≤ 1000 ∧ (0:ℚ) < 10 ∧ 0 ≤ usConfig.min_order_amount ∧
    calculate_quantity usConfig 1000 (1/2) 10 0 = 40 := by
  have h1 : (0:ℚ) ≤ 1000 := by norm_num
  have h2 : (0:ℚ) < 10 := by norm_num
  have h3 : 0 ≤ usConfig.min_order_amount := by norm_num [usConfig]
  have h4 := (calculate_quantity_spec usConfig 1000 (1/2) 10 0 h1 h2 h3).2.2.1
  have h5 : usConfig.min_order_amount ≤
      min ((1000:ℚ) * (1/2)) (1000 * (40/100) - 0) := by norm_num [usConfig]
  refine ⟨h1, h2, h3, ?_⟩
  rw [h4 h5]
  norm_num

/-- C2: validate_order rejects INSUFFICIENT_CASH exactly when total cost
(notional + commission) exceeds available cash; otherwise
CASH_RESERVE_VIOLATION exactly when the remaining cash falls below 5% of
equity; otherwise BELOW_MIN_ORDER exactly when the notional is below
min_order_amount; and accepts in every remaining case. -/
theorem validate_order_spec (cfg : MarketConfig) (e cash fp : ℚ) (q : ℤ) :
    (validate_order cfg e cash fp q = (false, some "INSUFFICIENT_CASH") ↔
      cash < fp * q + calculate_commission cfg fp q) ∧
    (validate_order cfg e cash fp q = (false, some "CASH_RESERVE_VIOLATION") ↔
      fp * q + calculate_commission cfg fp q ≤ cash ∧
      cash - (fp * q + calculate_commission cfg fp q) < e * (5/100)) ∧
    (validate_order cfg e cash fp q = (false, some "BELOW_MIN_ORDER") ↔
      fp * q + calculate_commission cfg fp q ≤ cash ∧
      e * (5/100) ≤ cash - (fp * q + calculate_commission cfg fp q) ∧
      fp * q < cfg.min_order_amount) ∧
    (validate_order cfg e cash fp q = (true, none) ↔
      fp * q + calculate_commission cfg fp q ≤ cash ∧
      e * (5/100) ≤ cash - (fp * q + calculate_commission cfg fp q) ∧
      cfg.min_order_amount ≤ fp * q) := by
  unfold validate_order
  simp only
  split_ifs with h1 h2 h3
  · simp_all [not_lt]
  · simp_all [not_lt]
  · simp_all [not_lt]
  · simp_all [not_lt]

/-- C3: calculate_commission is max(fill_price*quantity*commission_rate,
min_commission) for every config, and under the US configuration any order
with fill_price*quantity*0.0025 < 1 is charged exactly the $1 minimum. -/
theorem calculate_commission_spec (fp : ℚ) (q : ℤ) (h1 : 0 ≤ fp) (h2 : 0 ≤ q) :
    (∀ cfg : MarketConfig,
      calculate_commission cfg fp q = max (fp * q * cfg.commission_rate) cfg.min_commission) ∧
    (fp * q * (25/10000) < 1 → calculate_commission usConfig fp q = 1) := by
  constructor
  · intro cfg
    rfl
  · intro hsmall
    unfold calculate_commission usConfig
    exact max_eq_right (le_of_lt hsmall)

/-- Witness for C3: a $3 share, 2 shares: the raw commission 0.015 is below
the $1 minimum, so exactly $1 is charged. -/
theorem calculate_commission_spec_witness :
    (0:ℚ) ≤ 3 ∧ (0:ℤ) ≤ 2 ∧ calculate_commission usConfig 3 2 = 1 := by
  have h1 : (0:ℚ) ≤ 3 := by norm_num
  have h2 : (0:ℤ) ≤ 2 := by norm_num
  refine ⟨h1, h2, ?_⟩
  exact (calculate_commission_spec 3 2 h1 h2).2 (by norm_num)

/-- C4: for a symbol whose accumulated price history (current close included)
is shorter than lookback_period, or whose lookback window has zero variance
(zero standard deviation), MeanReversionStrategy.on_bar emits no order for
that symbol (and, being a total function here, raises no error). -/
theorem mean_reversion_no_signal (p : MRParams) (history : List ℚ) (close : ℚ)
    (held : Bool) :
    ((history ++ [close]).length < p.lookback_period →
      on_bar_symbol p history close held = none) ∧
    (varQ (mrWindow p history close) = 0 →
      on_bar_symbol p history close held = none) := by
  constructor
  · intro h
    unfold on_bar_symbol
    rw [if_pos h]
  · intro h
    unfold on_bar_symbol
    by_cases hl : (history ++ [close]).length < p.lookback_period
    · rw [if_pos hl]
    · rw [if_neg hl, if_pos h]

/-- Witness for C4: with lookback 2, a first bar has too little history and a
constant pair of closes has zero variance; both produce no order. -/
theorem mean_reversion_no_signal_witness :
    ((([] : List ℚ) ++ [(5 : ℚ)]).length < (2 : ℕ)) ∧
    on_bar_symbol ⟨2, 2, 1/2, 3/10⟩ [] 5 false = none ∧
    varQ (mrWindow ⟨2, 2, 1/2, 3/10⟩ [(5 : ℚ)] 5) = 0 ∧
    on_bar_symbol ⟨2, 2, 1/2, 3/10⟩ [(5 : ℚ)] 5 false = none := by
  refine ⟨by decide, ?_, by norm_num [varQ, meanQ, mrWindow], ?_⟩
  · exact (mean_reversion_no_signal ⟨2, 2, 1/2, 3/10⟩ [] 5 false).1 (by decide)
  · exact (mean_reversion_no_signal ⟨2, 2, 1/2, 3/10⟩ [(5 : ℚ)] 5 false).2
      (by norm_num [varQ, meanQ, mrWindow])

/-- C5: for a symbol with sufficient history and nonzero variance, on_bar
emits BUY with weight = position_weight exactly when the z-score is below
-entry_threshold and no position is held, emits SELL with weight = 1.0
exactly when a position is held and the z-score is above -exit_threshold,
and emits nothing otherwise. -/
theorem mean_reversion_signals (p : MRParams) (history : List ℚ) (close : ℚ)
    (held : Bool)
    (hlen : p.lookback_period ≤ (history ++ [close]).length)
    (hstd : varQ (mrWindow p history close) ≠ 0) :
    (on_bar_symbol p history close held = some ⟨OrderSide.BUY, p.position_weight⟩ ↔
      mrZ p history close < -(p.entry_threshold : ℝ) ∧ held = false) ∧
    (on_bar_symbol p history close held = some ⟨OrderSide.SELL, 1⟩ ↔
      held = true ∧ -(p.exit_threshold : ℝ) < mrZ p history close) ∧
    (on_bar_symbol p history close held = none ↔
      ¬(mrZ p history close < -(p.entry_threshold : ℝ) ∧ held = false) ∧
      ¬(held = true ∧ -(p.exit_threshold : ℝ) < mrZ p history close)) := by
  unfold on_bar_symbol
  rw [if_neg (not_lt.mpr hlen), if_neg hstd]
  by_cases hbuy : mrZ p history close < -(p.entry_threshold : ℝ) ∧ held = false
  · obtain ⟨hz, hheld⟩ := hbuy
    subst hheld
    rw [if_pos ⟨hz, rfl⟩]
    simp [hz]
  · rw [if_neg hbuy]
    by_cases hsell : held = true ∧ -(p.exit_threshold : ℝ) < mrZ p history close
    · obtain ⟨hheld, hz⟩ := hsell
      subst hheld
      rw [if_pos ⟨rfl, hz⟩]
      simp only [not_and] at hbuy
      simp [hz, hbuy]
    · rw [if_neg hsell]
      simp [hbuy, hsell]

/-- Witness for C5: lookback 2, entry threshold 1/2, history [3] and close 1
give window [3,1] with mean 2, variance 1, z-score -1 < -1/2; with no
position held a BUY of weight position_weight = 3/10 is emitted. -/
theorem mean_reversion_signals_witness :
    varQ (mrWindow ⟨2, 1/2, 1/2, 3/10⟩ [(3 : ℚ)] 1) ≠ 0 ∧
    on_bar_symbol ⟨2, 1/2, 1/2, 3/10⟩ [(3 : ℚ)] 1 false =
      some ⟨OrderSide.BUY, 3/10⟩ := by
  have hstd : varQ (mrWindow ⟨2, 1/2, 1/2, 3/10⟩ [(3 : ℚ)] 1) ≠ 0 := by
    norm_num [varQ, meanQ, mrWindow]
  have hlen : (⟨2, 1/2, 1/2, 3/10⟩ : MRParams).lookback_period ≤
      (([(3 : ℚ)]) ++ [1]).length := by decide
  have hw : mrWindow ⟨2, 1/2, 1/2, 3/10⟩ [(3 : ℚ)] 1 = [3, 1] := rfl
  have hm : meanQ [(3 : ℚ), 1] = 2 := by norm_num [meanQ]
  have hv : varQ [(3 : ℚ), 1] = 1 := by norm_num [varQ, meanQ]
  have hz : mrZ ⟨2, 1/2, 1/2, 3/10⟩ [(3 : ℚ)] 1 < -((1/2 : ℚ) : ℝ) := by
    unfold mrZ
    rw [hw, hm, hv]
    push_cast
    rw [Real.sqrt_one]
    norm_num
  exact ⟨hstd,
    (mean_reversion_signals ⟨2, 1/2, 1/2, 3/10⟩ [(3 : ℚ)] 1 false hlen hstd).1.mpr
      ⟨hz, rfl⟩⟩

/-- C6: annual_return computes total_return before its n_bars = 0 guard, so on
an empty equity curve it propagates the IndexError of equity.iloc[-1] (none)
instead of returning 0; for every curve of length ≥ 1 (and trading_days ≥ 1)
it returns (1+total_return)^(trading_days/n_bars) - 1 as specified. -/
theorem annual_return_c6 :
    annual_return [] 252 = none ∧
    ∀ (e : ℚ) (rest : List ℚ) (td : ℕ) (tr : ℚ), 1 ≤ td →
      total_return (e :: rest) = some tr →
      annual_return (e :: rest) td =
        some ((1 + (tr : ℝ)) ^ ((td : ℝ) / ((e :: rest).length : ℝ)) - 1) := by
  constructor
  · rfl
  · intro e rest td tr htd htr
    unfold annual_return
    rw [htr]
    simp only [Option.map_some']
    have hn : (0:ℚ) < ((e :: rest).length : ℚ) := by
      exact_mod_cast Nat.succ_pos rest.length
    have htd' : (0:ℚ) < (td : ℚ) := by exact_mod_cast htd
    have hy : ¬ (((e :: rest).length : ℚ) / (td : ℚ) ≤ 0) :=
      not_le.mpr (div_pos hn htd')
    rw [if_neg hy]
    congr 1
    congr 1
    rw [Rat.cast_div, one_div_div]
    push_cast
    ring

/-- Witness for C6 on the curve [1, 2]: total_return is 1 and annual_return is
(1+1)^(252/2) - 1. -/
theorem annual_return_c6_witness :
    (1 : ℕ) ≤ 252 ∧ total_return [(1 : ℚ), 2] = some 1 ∧
    annual_return [(1 : ℚ), 2] 252 =
      some ((1 + ((1 : ℚ) : ℝ)) ^ ((252 : ℝ) / (([(1 : ℚ), 2]).length : ℝ)) - 1) := by
  have h1 : (1 : ℕ) ≤ 252 := by norm_num
  have h2 : total_return [(1 : ℚ), 2] = some 1 := by
    norm_num [total_return, List.getLast]
  exact ⟨h1, h2, annual_return_c6.2 1 [2] 252 1 h1 h2⟩

lemma pctChanges_replicate (n : ℕ) (c : ℚ) (hc : c ≠ 0) :
    pctChanges c (List.replicate n c) = List.replicate n 0 := by
  induction n with
  | zero => rfl
  | succ k ih =>
    rw [List.replicate_succ, List.replicate_succ]
    unfold pctChanges
    rw [div_self hc, ih]
    norm_num

lemma returns_replicate (n : ℕ) (c : ℚ) (hc : c ≠ 0) :
    calculate_returns (List.replicate n c) = List.replicate n 0 := by
  cases n with
  | zero => rfl
  | succ k =>
    rw [List.replicate_succ]
    show 0 :: pctChanges c (List.replicate k c) = List.replicate (k + 1) 0
    rw [pctChanges_replicate k c hc, List.replicate_succ]

lemma meanQ_replicate_zero (n : ℕ) : meanQ (List.replicate n (0:ℚ)) = 0 := by
  unfold meanQ
  rw [List.sum_replicate, smul_zero, zero_div]

lemma varS_replicate_zero (n : ℕ) (hn : 2 ≤ n) :
    varS (List.replicate n (0:ℚ)) = some 0 := by
  unfold varS
  rw [List.length_replicate, if_neg (not_lt.mpr hn), List.map_replicate]
  rw [meanQ_replicate_zero]
  norm_num

lemma filter_neg_replicate_zero (n : ℕ) :
    (List.replicate n (0:ℚ)).filter (fun r => r < 0) = [] := by
  induction n with
  | zero => rfl
  | succ k ih =>
    rw [List.replicate_succ, List.filter_cons]
    simp [ih]

/-- C7 counterexample: the claim fails on a flat positive curve of length 1.
pandas Series.std() uses ddof = 1, which is NaN for a single observation;
NaN == 0 is false, so sharpe_ratio falls through to the formula and returns
NaN (none), not 0. -/
theorem sharpe_flat_singleton_ne_zero :
    sharpe_ratio [(100 : ℚ)] (2/100) 252 ≠ some 0 := by
  have h : sharpe_ratio [(100 : ℚ)] (2/100) 252 = none := rfl
  rw [h]
  simp

/-- C7 (amended): a flat positive equity curve of length ≥ 2 yields
sharpe_ratio 0 (the sample std of the returns is 0) and sortino_ratio 0
(there are no negative returns); sortino_ratio is 0 for every length. -/
theorem flat_curve_ratios (c : ℚ) (n : ℕ) (rf : ℚ) (td : ℕ) (hc : 0 < c) :
    (2 ≤ n → sharpe_ratio (List.replicate n c) rf td = some 0) ∧
    sortino_ratio (List.replicate n c) rf td = some 0 := by
  have hret := returns_replicate n c hc.ne'
  constructor
  · intro hn
    simp only [sharpe_ratio, hret]
    rw [varS_replicate_zero n hn]
    simp
  · simp only [sortino_ratio, hret]
    rw [filter_neg_replicate_zero n]
    simp

/-- Witness for C7 on the flat curve [100, 100, 100]: both ratios are 0. -/
theorem flat_curve_ratios_witness :
    (0 : ℚ) < 100 ∧ (2 : ℕ) ≤ 3 ∧
    sharpe_ratio (List.replicate 3 (100 : ℚ)) (2/100) 252 = some 0 ∧
    sortino_ratio (List.replicate 3 (100 : ℚ)) (2/100) 252 = some 0 := by
  have hc : (0 : ℚ) < 100 := by norm_num
  have hn : (2 : ℕ) ≤ 3 := by norm_num
  exact ⟨hc, hn, (flat_curve_ratios 100 3 (2/100) 252 hc).1 hn,
    (flat_curve_ratios 100 3 (2/100) 252 hc).2⟩

lemma sum_neg_of_forall_neg (l : List ℚ) : (∀ x ∈ l, x < 0) → l ≠ [] → l.sum < 0 := by
  induction l with
  | nil => intro _ h; exact absurd rfl h
  | cons x xs ih =>
    intro hall _
    rw [List.sum_cons]
    rcases eq_or_ne xs ([] : List ℚ) with h | h
    · subst h
      simpa using hall x (by simp)
    · have hx := hall x (by simp)
      have hxs := ih (fun y hy => hall y (by simp [hy])) h
      linarith

/-- C8: profit_factor is 0 on an empty trade list; whenever a losing trade
exists it equals Σ(pnl of winners)/|Σ(pnl of losers)|; and with at least one
winner and no loser it is +∞ (⊤). -/
theorem profit_factor_spec (trades : List ℚ) :
    profit_factor [] = 0 ∧
    ((∃ t ∈ trades, t < 0) →
      profit_factor trades =
        (((trades.filter (fun p => 0 < p)).sum /
          |(trades.filter (fun p => p < 0)).sum| : ℚ) : WithTop ℚ)) ∧
    ((∃ t ∈ trades, 0 < t) ∧ (∀ t ∈ trades, ¬ t < 0) →
      profit_factor trades = ⊤) := by
  refine ⟨rfl, ?_, ?_⟩
  · rintro ⟨t, ht, htneg⟩
    have hne : trades ≠ [] := by
      rintro rfl
      exact absurd ht (List.not_mem_nil t)
    unfold profit_factor
    rw [if_neg hne]
    simp only
    have hmem : t ∈ trades.filter (fun p => p < 0) :=
      List.mem_filter.mpr ⟨ht, by simpa using htneg⟩
    have hall : ∀ x ∈ trades.filter (fun p => p < 0), x < 0 := by
      intro x hx
      simpa using List.of_mem_filter hx
    have hsum : (trades.filter (fun p => p < 0)).sum < 0 :=
      sum_neg_of_forall_neg _ hall (List.ne_nil_of_mem hmem)
    have habs : |(trades.filter (fun p => p < 0)).sum| ≠ 0 := abs_ne_zero.mpr hsum.ne
    rw [if_neg habs]
  · rintro ⟨⟨t, ht, htpos⟩, hnoneg⟩
    have hne : trades ≠ [] := by
      rintro rfl
      exact absurd ht (List.not_mem_nil t)
    unfold profit_factor
    rw [if_neg hne]
    simp only
    have hL : trades.filter (fun p => p < 0) = [] :=
      List.filter_eq_nil_iff.mpr (fun a ha => by simpa using hnoneg a ha)
    have hmem : t ∈ trades.filter (fun p => 0 < p) :=
      List.mem_filter.mpr ⟨ht, by simpa using htpos⟩
    have hallpos : ∀ x ∈ trades.filter (fun p => 0 < p), 0 < x := by
      intro x hx
      simpa using List.of_mem_filter hx
    have hsum : 0 < (trades.filter (fun p => 0 < p)).sum :=
      List.sum_pos _ hallpos (List.ne_nil_of_mem hmem)
    rw [hL]
    simp [hsum]

/-- Witness for C8: ledger [2, -1] has profit factor 2; ledger [1] (a winner,
no losers) has profit factor +∞. -/
theorem profit_factor_spec_witness :
    profit_factor [(2 : ℚ), -1] = ((2 : ℚ) : WithTop ℚ) ∧
    profit_factor [(1 : ℚ)] = ⊤ := by
  constructor
  · have h := (profit_factor_spec [(2 : ℚ), -1]).2.1 ⟨-1, by simp, by norm_num⟩
    rw [h]
    have h2 : ([(2:ℚ), -1].filter (fun p => 0 < p)).sum /
        |([(2:ℚ), -1].filter (fun p => p < 0)).sum| = 2 := by
      norm_num [List.filter]
    rw [h2]
  · refine (profit_factor_spec [(1 : ℚ)]).2.2 ⟨⟨1, by simp, by norm_num⟩, ?_⟩
    intro t ht
    rw [List.mem_singleton] at ht
    subst ht
    norm_num

lemma if_lt_eq_max (a b : ℚ) : (if a < b then b else a) = max a b := by
  rcases le_or_lt b a with h | h
  · rw [if_neg (not_lt.mpr h), max_eq_left h]
  · rw [if_pos h, max_eq_right h.le]

lemma ddGo_length (peak : ℚ) (l : List ℚ) : (ddGo peak l).length = l.length := by
  induction l generalizing peak with
  | nil => rfl
  | cons e es ih =>
    simp only [ddGo, List.length_cons, ih]

lemma ddGo_getD (l : List ℚ) : ∀ (peak : ℚ) (i : ℕ), i < l.length →
    (ddGo peak l).getD i 0 =
      (if 0 < (l.take (i+1)).foldl max peak
       then (l.getD i 0 - (l.take (i+1)).foldl max peak) /
            (l.take (i+1)).foldl max peak
       else 0) := by
  induction l with
  | nil =>
    intro peak i h
    simp at h
  | cons e es ih =>
    intro peak i h
    cases i with
    | zero =>
      simp only [ddGo, List.getD_cons_zero, List.take_succ_cons, List.take_zero,
        List.foldl_cons, List.foldl_nil, if_lt_eq_max]
    | succ j =>
      have hj : j < es.length := by simpa using h
      simp only [ddGo, List.getD_cons_succ, List.take_succ_cons, List.foldl_cons,
        if_lt_eq_max]
      exact ih (max peak e) j hj

lemma getD_le_foldl_max (l : List ℚ) : ∀ (peak : ℚ) (i : ℕ), i < l.length →
    l.getD i 0 ≤ (l.take (i+1)).foldl max peak := by
  induction l with
  | nil =>
    intro peak i h
    simp at h
  | cons e es ih =>
    intro peak i h
    cases i with
    | zero =>
      simp only [List.getD_cons_zero, List.take_succ_cons, List.take_zero,
        List.foldl_cons, List.foldl_nil]
      exact le_max_right peak e
    | succ j =>
      have hj : j < es.length := by simpa using h
      simp only [List.getD_cons_succ, List.take_succ_cons, List.foldl_cons]
      exact ih (max peak e) j hj

/-- C9: for a non-empty equity list, getBacktest derives one drawdown per
point; point i's drawdown is (equity_i - peak_i)/peak_i where peak_i is the
maximum equity over points 0..i (the fold of max seeded with the first
equity), or 0 when that peak is not positive; every drawdown is ≤ 0 and the
first one is 0. -/
theorem drawdown_spec (e0 : ℚ) (rest : List ℚ) (i : ℕ)
    (hi : i < (e0 :: rest).length) :
    (deriveDrawdowns (e0 :: rest)).length = (e0 :: rest).length ∧
    (deriveDrawdowns (e0 :: rest)).getD i 0 =
      (if 0 < ((e0 :: rest).take (i+1)).foldl max e0
       then ((e0 :: rest).getD i 0 - ((e0 :: rest).take (i+1)).foldl max e0) /
            ((e0 :: rest).take (i+1)).foldl max e0
       else 0) ∧
    (deriveDrawdowns (e0 :: rest)).getD i 0 ≤ 0 ∧
    (deriveDrawdowns (e0 :: rest)).getD 0 0 = 0 := by
  have hform := ddGo_getD (e0 :: rest) e0 i hi
  have h0 : (0:ℕ) < (e0 :: rest).length := Nat.succ_pos _
  have hform0 := ddGo_getD (e0 :: rest) e0 0 h0
  refine ⟨ddGo_length e0 (e0 :: rest), hform, ?_, ?_⟩
  · rw [show deriveDrawdowns (e0 :: rest) = ddGo e0 (e0 :: rest) from rfl, hform]
    split_ifs with hP
    · apply div_nonpos_of_nonpos_of_nonneg _ (le_of_lt hP)
      rw [sub_nonpos]
      exact getD_le_foldl_max (e0 :: rest) e0 i hi
    · exact le_refl 0
  · rw [show deriveDrawdowns (e0 :: rest) = ddGo e0 (e0 :: rest) from rfl, hform0]
    simp only [List.take_succ_cons, List.take_zero, List.foldl_cons, List.foldl_nil,
      List.getD_cons_zero, max_self, sub_self, zero_div]
    split_ifs <;> rfl

/-- Witness for C9 on the equity curve [100, 90, 110]: the second point's
drawdown is (90-100)/100 = -1/10 and the first point's drawdown is 0. -/
theorem drawdown_spec_witness :
    (1:ℕ) < ([(100:ℚ), 90, 110]).length ∧
    (deriveDrawdowns [(100:ℚ), 90, 110]).getD 1 0 = -(1/10) ∧
    (deriveDrawdowns [(100:ℚ), 90, 110]).getD 0 0 = 0 := by
  have hi : (1:ℕ) < ([(100:ℚ), 90, 110]).length := by norm_num
  have h := drawdown_spec 100 [90, 110] 1 hi
  refine ⟨hi, ?_, h.2.2.2⟩
  rw [h.2.1]
  norm_num [List.take, List.foldl, max_def]

lemma runLen_replicate_append (k : ℕ) (t : List Bool) :
    runLen (List.replicate k true ++ t) = k + runLen t := by
  induction k with
  | zero => simp
  | succ j ih =>
    rw [List.replicate_succ, List.cons_append]
    show runLen (List.replicate j true ++ t) + 1 = (j + 1) + runLen t
    omega

lemma runLen_le_longestRun (l : List Bool) : runLen l ≤ longestRun l := by
  cases l with
  | nil => exact le_refl 0
  | cons b t => exact le_max_left _ _

lemma le_longestRun_rep (k : ℕ) (t : List Bool) :
    k ≤ longestRun (List.replicate k true ++ t) := by
  have h1 := runLen_replicate_append k t
  have h2 := runLen_le_longestRun (List.replicate k true ++ t)
  omega

lemma longestRun_replicate (k : ℕ) : longestRun (List.replicate k true) = k := by
  induction k with
  | zero => rfl
  | succ j ih =>
    rw [List.replicate_succ]
    show max (runLen (true :: List.replicate j true))
      (longestRun (List.replicate j true)) = j + 1
    rw [ih]
    have h3 : runLen (true :: List.replicate j true) =
        runLen (List.replicate j true) + 1 := rfl
    rw [h3]
    have h := runLen_replicate_append j ([] : List Bool)
    rw [List.append_nil] at h
    have h0 : runLen ([] : List Bool) = 0 := rfl
    rw [h0] at h
    rw [h]
    omega

lemma longestRun_rep_false (k : ℕ) (t : List Bool) :
    longestRun (List.replicate k true ++ false :: t) = max k (longestRun t) := by
  induction k with
  | zero =>
    simp only [List.replicate_zero, List.nil_append]
    show max (runLen (false :: t)) (longestRun t) = max 0 (longestRun t)
    have h2 : runLen (false :: t) = 0 := rfl
    rw [h2]
  | succ j ih =>
    rw [List.replicate_succ, List.cons_append]
    show max (runLen (true :: (List.replicate j true ++ false :: t)))
      (longestRun (List.replicate j true ++ false :: t)) = max (j + 1) (longestRun t)
    rw [ih]
    have h1 : runLen (true :: (List.replicate j true ++ false :: t)) =
        runLen (List.replicate j true ++ false :: t) + 1 := rfl
    rw [h1, runLen_replicate_append]
    have h2 : runLen (false :: t) = 0 := rfl
    rw [h2]
    omega

lemma foldl_streakStep (l : List Bool) : ∀ (ms cur : ℕ), cur ≤ ms →
    (l.foldl streakStep (ms, cur)).1 =
      max ms (longestRun (List.replicate cur true ++ l)) := by
  induction l with
  | nil =>
    intro ms cur h
    rw [List.foldl_nil, List.append_nil, longestRun_replicate]
    omega
  | cons r t ih =>
    intro ms cur h
    rw [List.foldl_cons]
    cases r with
    | true =>
      have hstep : streakStep (ms, cur) true = (max ms (cur + 1), cur + 1) := rfl
      rw [hstep, ih (max ms (cur + 1)) (cur + 1) (le_max_right _ _)]
      have hrep : List.replicate cur true ++ true :: t =
          List.replicate (cur + 1) true ++ t := by
        rw [List.replicate_succ', List.append_assoc]
        rfl
      rw [hrep]
      have hge := le_longestRun_rep (cur + 1) t
      omega
    | false =>
      have hstep : streakStep (ms, cur) false = (ms, 0) := rfl
      rw [hstep, ih ms 0 (Nat.zero_le ms)]
      rw [List.replicate_zero, List.nil_append, longestRun_rep_false]
      omega

/-- C10: max_consecutive classifies a trade as a loss when pnl ≤ 0 (win when
pnl > 0), returns the length of the longest run of consecutively classified
trades, and returns 0 on an empty ledger; a pnl of exactly 0 extends the loss
streak ([0,0] gives 2 losses) but breaks the win streak ([0,0] gives 0 wins). -/
theorem max_consecutive_spec (trades : List ℚ) (win : Bool) :
    max_consecutive trades win =
      longestRun (trades.map (fun p => if win then decide (0 < p) else decide (p ≤ 0))) ∧
    max_consecutive [] win = 0 ∧
    max_consecutive [(0:ℚ), 0] false = 2 ∧
    max_consecutive [(0:ℚ), 0] true = 0 := by
  refine ⟨?_, rfl, ?_, ?_⟩
  · by_cases hnil : trades = []
    · subst hnil
      rfl
    · unfold max_consecutive
      rw [if_neg hnil]
      show (List.foldl streakStep (0, 0)
        (trades.map (fun p => if win then decide (0 < p) else decide (p ≤ 0)))).1 =
        longestRun (trades.map (fun p => if win then decide (0 < p) else decide (p ≤ 0)))
      rw [foldl_streakStep _ 0 0 (le_refl 0)]
      rw [List.replicate_zero, List.nil_append]
      omega
  · decide
  · decide
